import Mathlib

/-!
# vail: the connection session of the repeater relay (`main.go`)

A shallow embedding of `Client.Handle`, `ChatHandler` and `main`.

* The Hub (`book`) is reached only through `book.Join`, `book.Send` and
  `book.Part`; a session is observed as the ordered list of effects it
  performs: its calls on the Hub and its calls of `ws.Read`.
* The websocket connection is external.  Its future is the list of events
  its successive `Read` calls will meet; when that list is exhausted the
  stream is closed and `Read` reports an error.  What `Read` answers on an
  event is a parameter of the model.
* `Message.UnmarshalBinary` is a parameter as well: `Handle` only looks at
  whether it reports an error.
-/

namespace Vail

/-- One octet of a payload. -/
abbrev Byte := Fin 256

/-- The answer of one call `n, err := ws.Read(buf)`: either `err != nil`, or a
count `n` together with the bytes the call stored at the start of `buf`. -/
inductive ReadResult where
  | err : ReadResult
  | ok (n : Int) (data : List Byte) : ReadResult
  deriving DecidableEq, Repr

/-- A `*websocket.Conn`: its identity (the pointer), the field
`MaxPayloadBytes`, and the events its next `Read` calls will meet. -/
structure Conn (ι : Type) where
  addr : Nat
  MaxPayloadBytes : Nat
  inbound : List ι

/-- Go `type Client struct { repeaterName string }`. -/
structure Client where
  repeaterName : String
  deriving DecidableEq, Repr

/-- The observable effects of a session, in the order they happen. -/
inductive Effect where
  | Join (name : String) (ws : Nat) : Effect
  | Part (name : String) (ws : Nat) : Effect
  | Send (name : String) (payload : List Byte) : Effect
  | Read (ws : Nat) : Effect
  deriving DecidableEq, Repr

/-- How the body of `Handle` was left: by `break` out of the loop, or by a
run-time panic of the slice expression `buf[:n]`. -/
inductive Exit where
  | returned : Exit
  | panicked : Exit
  deriving DecidableEq, Repr

/-- The effects of a run and the way it ended. -/
structure Outcome where
  trace : List Effect
  exit : Exit
  deriving DecidableEq, Repr

/-- Go `make([]byte, n)`: `n` zero bytes. -/
def make (n : Nat) : List Byte := List.replicate n 0

/-- The buffer after a read stored `data` at its start: a read never writes
past the end of the buffer and never changes its length. -/
def copyInto (buf data : List Byte) : List Byte :=
  data.take buf.length ++ buf.drop data.length

/-- Go `buf[:n]` on a slice whose capacity is its length: `none` is the
run-time panic for a count out of range. -/
def sliceTo (buf : List Byte) (n : Int) : Option (List Byte) :=
  if 0 ≤ n ∧ n ≤ (buf.length : Int) then some (buf.take n.toNat) else none

/-- Is the effect a command on the Hub? -/
def Effect.isHub : Effect → Bool
  | .Join _ _ => true
  | .Part _ _ => true
  | .Send _ _ => true
  | .Read _ => false

/-- The Hub commands of a trace, in order. -/
def hubCommands (t : List Effect) : List Effect := t.filter Effect.isHub

/-- The repeater name a Hub command carries. -/
def Effect.name? : Effect → Option String
  | .Join name _ => some name
  | .Part name _ => some name
  | .Send name _ => some name
  | .Read _ => none

/-- The payloads handed to `book.Send`, in order. -/
def sentPayloads : List Effect → List (List Byte)
  | [] => []
  | .Send _ p :: t => p :: sentPayloads t
  | _ :: t => sentPayloads t

section Session

variable {ι ε μ : Type}

/-- The `for` loop of `Client.Handle` (lines 22-39).  `Read maxPayloadBytes e buf`
is the answer of `ws.Read(buf)` when the connection meets event `e`;
`UnmarshalBinary` is `Message.UnmarshalBinary`. -/
def readLoop (Read : Nat → ι → List Byte → ReadResult)
    (UnmarshalBinary : List Byte → Except ε μ)
    (c : Client) (addr maxPayloadBytes : Nat) : List ι → Outcome
  | [] => ⟨[.Read addr], .returned⟩
  | e :: rest =>
    let buf := make maxPayloadBytes
    match Read maxPayloadBytes e buf with
    | .err => ⟨[.Read addr], .returned⟩
    | .ok n data =>
      match sliceTo (copyInto buf data) n with
      | none => ⟨[.Read addr], .panicked⟩
      | some buf =>
        match UnmarshalBinary buf with
        | .error _ =>
          let o := readLoop Read UnmarshalBinary c addr maxPayloadBytes rest
          ⟨.Read addr :: o.trace, o.exit⟩
        | .ok _ =>
          let o := readLoop Read UnmarshalBinary c addr maxPayloadBytes rest
          ⟨.Read addr :: .Send c.repeaterName buf :: o.trace, o.exit⟩

/-- Go `func (c Client) Handle(ws *websocket.Conn)`.  The deferred
`book.Part` runs when the body is left, by return or by panic. -/
def Handle (Read : Nat → ι → List Byte → ReadResult)
    (UnmarshalBinary : List Byte → Except ε μ)
    (c : Client) (ws : Conn ι) : Outcome :=
  let ws : Conn ι := ⟨ws.addr, 500, ws.inbound⟩
  let o := readLoop Read UnmarshalBinary c ws.addr ws.MaxPayloadBytes ws.inbound
  ⟨.Join c.repeaterName ws.addr :: (o.trace ++ [.Part c.repeaterName ws.addr]), o.exit⟩

/-- What one `Read` call leaves in `buf` after `buf = buf[:n]`, when the call
succeeds and the count is in range. -/
def readPayload (Read : Nat → ι → List Byte → ReadResult)
    (maxPayloadBytes : Nat) (e : ι) : Option (List Byte) :=
  match Read maxPayloadBytes e (make maxPayloadBytes) with
  | .err => none
  | .ok n data => sliceTo (copyInto (make maxPayloadBytes) data) n

/-- Does the envelope decode of a payload succeed? -/
def decodes (UnmarshalBinary : List Byte → Except ε μ) (p : List Byte) : Bool :=
  match UnmarshalBinary p with
  | .error _ => false
  | .ok _ => true

/-- The effects of the loop over reads that all succeed with a count in
range: one `Read` each, followed by a `Send` when the payload decodes. -/
def passTrace (Read : Nat → ι → List Byte → ReadResult)
    (UnmarshalBinary : List Byte → Except ε μ)
    (c : Client) (addr maxPayloadBytes : Nat) : List ι → List Effect
  | [] => []
  | e :: rest =>
    match readPayload Read maxPayloadBytes e with
    | none => []
    | some p =>
      if decodes UnmarshalBinary p then
        .Read addr :: .Send c.repeaterName p ::
          passTrace Read UnmarshalBinary c addr maxPayloadBytes rest
      else
        .Read addr :: passTrace Read UnmarshalBinary c addr maxPayloadBytes rest

/-- An HTTP request as `ChatHandler` sees it: its form values
(`url.Values`, a map from a key to its values) and the connection that the
websocket handshake on this request yields. -/
structure Request (ι : Type) where
  Form : List (String × List String)
  conn : Conn ι

/-- Go `r.FormValue(key)`: the first value of the key, the empty string when
the key is absent. -/
def Request.FormValue (r : Request ι) (key : String) : String :=
  match r.Form.lookup key with
  | some (v :: _) => v
  | _ => ""

/-- Modelled from the spec: `websocket.Handler(h).ServeHTTP(w, r)` of the
websocket package, which is not part of the sources.  The endpoint "upgrades
to a persistent duplex byte channel" and the router "starts a Connection
Session": the handler is run on the connection of the request.  A request
the package refuses at the handshake never reaches the handler and has no
connection; such requests are outside this model. -/
def ServeHTTP (h : Conn ι → Outcome) (r : Request ι) : Outcome := h r.conn

/-- Go `func ChatHandler(w http.ResponseWriter, r *http.Request)`. -/
def ChatHandler (Read : Nat → ι → List Byte → ReadResult)
    (UnmarshalBinary : List Byte → Except ε μ) (r : Request ι) : Outcome :=
  let c : Client := ⟨r.FormValue "repeater"⟩
  ServeHTTP (Handle Read UnmarshalBinary c) r

end Session

/-- What arrives on a connection, for the transport of the spec. -/
inductive Inbound where
  | payload (bytes : List Byte) : Inbound
  | failure : Inbound
  deriving DecidableEq, Repr

/-- Modelled from the spec: the read primitive `ws.Read` of the transport
layer, which is not part of the sources.  The endpoint "enforces a maximum
inbound payload size (reference: 500 bytes)" and "oversized payloads are a
transport-level error ending the session": a payload longer than
`MaxPayloadBytes` is answered by an error, any other payload is stored in the
buffer and its length reported. -/
def wsRead (maxPayloadBytes : Nat) : Inbound → List Byte → ReadResult
  | .failure, _ => .err
  | .payload p, buf =>
    if p.length > maxPayloadBytes then .err
    else .ok (min p.length buf.length : Nat) p

/-- The handlers `main` registers. -/
inductive Served where
  | ChatHandler : Served
  | FileServer (dir : String) : Served
  deriving DecidableEq, Repr

/-- The effects of `main`, in program order. -/
inductive MainEffect where
  | NewBook : MainEffect
  | HttpHandle (pattern : String) (h : Served) : MainEffect
  | GoRun : MainEffect
  | ListenAndServe (addr : String) : MainEffect
  | Fatal (msg : String) : MainEffect
  deriving DecidableEq, Repr

/-- Go `func main()`.  `listenErr` is the error `http.ListenAndServe`
returns, `none` for `nil`. -/
def main (listenErr : Option String) : List MainEffect :=
  [.NewBook,
   .HttpHandle "/chat" .ChatHandler,
   .HttpHandle "/" (.FileServer "static"),
   .GoRun,
   .ListenAndServe ":8080"] ++
  (match listenErr with
   | some msg => [.Fatal msg]
   | none => [])

/-- Is the effect a `book.Part`? -/
def Effect.isPart : Effect → Bool
  | .Part _ _ => true
  | _ => false

/-- Is the effect a `book.Join`? -/
def Effect.isJoin : Effect → Bool
  | .Join _ _ => true
  | _ => false

/-! ## Concrete sessions used to exercise the statements -/

/-- A transport whose events are the answers themselves. -/
def scriptRead (_maxPayloadBytes : Nat) (e : ReadResult) (_buf : List Byte) : ReadResult := e

/-- A decoder that accepts exactly the payloads starting with a non-zero
byte; the decoded message is the payload length. -/
def sampleUnmarshal : List Byte → Except String Nat
  | [] => .error "empty"
  | b :: rest => if b = 0 then .error "zero" else .ok (rest.length + 1)

/-- A client of the repeater `"r"`. -/
def sampleClient : Client := ⟨"r"⟩

/-! ## The loop, one read at a time -/

section Loop

variable {ι ε μ : Type} (Read : Nat → ι → List Byte → ReadResult)
  (UnmarshalBinary : List Byte → Except ε μ) (c : Client) (addr maxPayloadBytes : Nat)

theorem readLoop_nil :
    readLoop Read UnmarshalBinary c addr maxPayloadBytes [] = ⟨[.Read addr], .returned⟩ := by
  simp [readLoop]

theorem readLoop_cons_none (e : ι) (rest : List ι)
    (h : readPayload Read maxPayloadBytes e = none) :
    (readLoop Read UnmarshalBinary c addr maxPayloadBytes (e :: rest)).trace = [.Read addr] := by
  unfold readPayload at h
  rw [readLoop]
  split at h
  · rename_i hr
    simp [hr]
  · rename_i n data hr
    simp [hr, h]

theorem readLoop_cons_err (e : ι) (rest : List ι)
    (h : Read maxPayloadBytes e (make maxPayloadBytes) = .err) :
    readLoop Read UnmarshalBinary c addr maxPayloadBytes (e :: rest)
      = ⟨[.Read addr], .returned⟩ := by
  rw [readLoop]
  simp [h]

theorem readLoop_cons_reject (e : ι) (rest : List ι) (p : List Byte)
    (h : readPayload Read maxPayloadBytes e = some p)
    (hd : decodes UnmarshalBinary p = false) :
    readLoop Read UnmarshalBinary c addr maxPayloadBytes (e :: rest)
      = ⟨.Read addr :: (readLoop Read UnmarshalBinary c addr maxPayloadBytes rest).trace,
         (readLoop Read UnmarshalBinary c addr maxPayloadBytes rest).exit⟩ := by
  unfold readPayload at h
  unfold decodes at hd
  rw [readLoop]
  split at h
  · simp at h
  · rename_i n data hr
    simp only [hr, h]
    split at hd
    · rename_i x hu
      simp [hu]
    · simp at hd

theorem readLoop_cons_accept (e : ι) (rest : List ι) (p : List Byte)
    (h : readPayload Read maxPayloadBytes e = some p)
    (hd : decodes UnmarshalBinary p = true) :
    readLoop Read UnmarshalBinary c addr maxPayloadBytes (e :: rest)
      = ⟨.Read addr :: .Send c.repeaterName p ::
           (readLoop Read UnmarshalBinary c addr maxPayloadBytes rest).trace,
         (readLoop Read UnmarshalBinary c addr maxPayloadBytes rest).exit⟩ := by
  unfold readPayload at h
  unfold decodes at hd
  rw [readLoop]
  split at h
  · simp at h
  · rename_i n data hr
    simp only [hr, h]
    split at hd
    · simp at hd
    · rename_i x hu
      simp [hu]

theorem readLoop_append (pre s : List ι)
    (h : ∀ e ∈ pre, (readPayload Read maxPayloadBytes e).isSome = true) :
    readLoop Read UnmarshalBinary c addr maxPayloadBytes (pre ++ s)
      = ⟨passTrace Read UnmarshalBinary c addr maxPayloadBytes pre ++
           (readLoop Read UnmarshalBinary c addr maxPayloadBytes s).trace,
         (readLoop Read UnmarshalBinary c addr maxPayloadBytes s).exit⟩ := by
  induction pre with
  | nil => simp [passTrace]
  | cons e pre ih =>
    have he := h e (List.mem_cons_self e pre)
    have ih2 := ih (fun x hx => h x (List.mem_cons_of_mem e hx))
    obtain ⟨p, hp⟩ := Option.isSome_iff_exists.mp he
    cases hd : decodes UnmarshalBinary p with
    | false =>
      rw [List.cons_append,
        readLoop_cons_reject Read UnmarshalBinary c addr maxPayloadBytes e (pre ++ s) p hp hd,
        ih2]
      simp [passTrace, hp, hd]
    | true =>
      rw [List.cons_append,
        readLoop_cons_accept Read UnmarshalBinary c addr maxPayloadBytes e (pre ++ s) p hp hd,
        ih2]
      simp [passTrace, hp, hd]

theorem readLoop_trace_shape (s : List ι) :
    ∀ x ∈ (readLoop Read UnmarshalBinary c addr maxPayloadBytes s).trace,
      x = .Read addr ∨ ∃ p, x = .Send c.repeaterName p := by
  induction s with
  | nil => simp [readLoop]
  | cons e rest ih =>
    cases hp : readPayload Read maxPayloadBytes e with
    | none =>
      rw [readLoop_cons_none Read UnmarshalBinary c addr maxPayloadBytes e rest hp]
      simp
    | some p =>
      cases hd : decodes UnmarshalBinary p with
      | false =>
        rw [readLoop_cons_reject Read UnmarshalBinary c addr maxPayloadBytes e rest p hp hd]
        intro x hx
        simp only [List.mem_cons] at hx
        rcases hx with hx | hx
        · exact Or.inl hx
        · exact ih x hx
      | true =>
        rw [readLoop_cons_accept Read UnmarshalBinary c addr maxPayloadBytes e rest p hp hd]
        intro x hx
        simp only [List.mem_cons] at hx
        rcases hx with hx | hx | hx
        · exact Or.inl hx
        · exact Or.inr ⟨p, hx⟩
        · exact ih x hx

theorem readLoop_send_origin (s : List ι) (name : String) (p : List Byte)
    (h : Effect.Send name p ∈ (readLoop Read UnmarshalBinary c addr maxPayloadBytes s).trace) :
    ∃ e ∈ s, readPayload Read maxPayloadBytes e = some p ∧
      decodes UnmarshalBinary p = true := by
  induction s with
  | nil => simp [readLoop] at h
  | cons e rest ih =>
    cases hp : readPayload Read maxPayloadBytes e with
    | none =>
      rw [readLoop_cons_none Read UnmarshalBinary c addr maxPayloadBytes e rest hp] at h
      simp at h
    | some q =>
      cases hd : decodes UnmarshalBinary q with
      | false =>
        rw [readLoop_cons_reject Read UnmarshalBinary c addr maxPayloadBytes e rest q hp hd] at h
        simp only [List.mem_cons] at h
        rcases h with h | h
        · cases h
        · obtain ⟨x, hx, hx2⟩ := ih h
          exact ⟨x, List.mem_cons_of_mem e hx, hx2⟩
      | true =>
        rw [readLoop_cons_accept Read UnmarshalBinary c addr maxPayloadBytes e rest q hp hd] at h
        simp only [List.mem_cons] at h
        rcases h with h | h | h
        · cases h
        · cases h
          exact ⟨e, List.mem_cons_self e rest, hp, hd⟩
        · obtain ⟨x, hx, hx2⟩ := ih h
          exact ⟨x, List.mem_cons_of_mem e hx, hx2⟩

theorem copyInto_length (buf data : List Byte) : (copyInto buf data).length = buf.length := by
  simp only [copyInto, List.length_append, List.length_take, List.length_drop]
  omega

theorem make_length (n : Nat) : (make n).length = n := by
  simp [make]

theorem readPayload_eq_some_iff (e : ι) (p : List Byte) :
    readPayload Read maxPayloadBytes e = some p ↔
      ∃ n data, Read maxPayloadBytes e (make maxPayloadBytes) = .ok n data ∧
        0 ≤ n ∧ n ≤ (maxPayloadBytes : Int) ∧
        p = (copyInto (make maxPayloadBytes) data).take n.toNat := by
  unfold readPayload
  constructor
  · intro h
    split at h
    · simp at h
    · rename_i n data hr
      refine ⟨n, data, hr, ?_⟩
      unfold sliceTo at h
      rw [copyInto_length, make_length] at h
      split at h
      · rename_i hb
        simp only [Option.some.injEq] at h
        exact ⟨hb.1, hb.2, h.symm⟩
      · simp at h
  · rintro ⟨n, data, hr, h0, h1, hp⟩
    simp only [hr, sliceTo, copyInto_length, make_length]
    rw [if_pos ⟨h0, h1⟩, hp]

theorem readPayload_length_le (e : ι) (p : List Byte)
    (h : readPayload Read maxPayloadBytes e = some p) : p.length ≤ maxPayloadBytes := by
  obtain ⟨n, data, _, _, _, hp⟩ :=
    (readPayload_eq_some_iff Read maxPayloadBytes e p).mp h
  rw [hp, List.length_take, copyInto_length, make_length]
  exact Nat.min_le_right _ _

theorem sentPayloads_append (a b : List Effect) :
    sentPayloads (a ++ b) = sentPayloads a ++ sentPayloads b := by
  induction a with
  | nil => simp [sentPayloads]
  | cons x a ih =>
    cases x <;> simp [sentPayloads, ih]

theorem sentPayloads_passTrace (pre : List ι)
    (h : ∀ e ∈ pre, (readPayload Read maxPayloadBytes e).isSome = true) :
    sentPayloads (passTrace Read UnmarshalBinary c addr maxPayloadBytes pre)
      = (pre.filterMap (readPayload Read maxPayloadBytes)).filter (decodes UnmarshalBinary) := by
  induction pre with
  | nil => simp [passTrace, sentPayloads]
  | cons e pre ih =>
    have he := h e (List.mem_cons_self e pre)
    have ih2 := ih (fun x hx => h x (List.mem_cons_of_mem e hx))
    obtain ⟨p, hp⟩ := Option.isSome_iff_exists.mp he
    cases hd : decodes UnmarshalBinary p with
    | false => simp [passTrace, hp, hd, sentPayloads, ih2, List.filterMap_cons]
    | true => simp [passTrace, hp, hd, sentPayloads, ih2, List.filterMap_cons]

theorem readLoop_cons_none_eq (e : ι) (rest rest2 : List ι)
    (h : readPayload Read maxPayloadBytes e = none) :
    readLoop Read UnmarshalBinary c addr maxPayloadBytes (e :: rest)
      = readLoop Read UnmarshalBinary c addr maxPayloadBytes (e :: rest2) := by
  unfold readPayload at h
  rw [readLoop, readLoop]
  split at h
  · rename_i hr
    simp [hr]
  · rename_i n data hr
    simp [hr, h]

theorem readLoop_skip_rejected (pre post : List ι) (e : ι) (p : List Byte)
    (hp : readPayload Read maxPayloadBytes e = some p)
    (hd : decodes UnmarshalBinary p = false) :
    hubCommands (readLoop Read UnmarshalBinary c addr maxPayloadBytes (pre ++ e :: post)).trace
        = hubCommands (readLoop Read UnmarshalBinary c addr maxPayloadBytes (pre ++ post)).trace ∧
      (readLoop Read UnmarshalBinary c addr maxPayloadBytes (pre ++ e :: post)).exit
        = (readLoop Read UnmarshalBinary c addr maxPayloadBytes (pre ++ post)).exit := by
  induction pre with
  | nil =>
    rw [List.nil_append, List.nil_append,
      readLoop_cons_reject Read UnmarshalBinary c addr maxPayloadBytes e post p hp hd]
    simp [hubCommands, Effect.isHub]
  | cons x pre ih =>
    rw [List.cons_append, List.cons_append]
    cases hx : readPayload Read maxPayloadBytes x with
    | none =>
      rw [readLoop_cons_none_eq Read UnmarshalBinary c addr maxPayloadBytes x
        (pre ++ e :: post) (pre ++ post) hx]
      exact ⟨rfl, rfl⟩
    | some q =>
      cases hq : decodes UnmarshalBinary q with
      | false =>
        rw [readLoop_cons_reject Read UnmarshalBinary c addr maxPayloadBytes x _ q hx hq,
          readLoop_cons_reject Read UnmarshalBinary c addr maxPayloadBytes x _ q hx hq]
        refine ⟨?_, ih.2⟩
        have h1 := ih.1
        simp only [hubCommands] at h1 ⊢
        simp [List.filter_cons, h1]
      | true =>
        rw [readLoop_cons_accept Read UnmarshalBinary c addr maxPayloadBytes x _ q hx hq,
          readLoop_cons_accept Read UnmarshalBinary c addr maxPayloadBytes x _ q hx hq]
        refine ⟨?_, ih.2⟩
        have h1 := ih.1
        simp only [hubCommands] at h1 ⊢
        simp [List.filter_cons, h1]

theorem readLoop_stop_at_err (pre post : List ι) (e : ι)
    (he : Read maxPayloadBytes e (make maxPayloadBytes) = .err) :
    readLoop Read UnmarshalBinary c addr maxPayloadBytes (pre ++ e :: post)
      = readLoop Read UnmarshalBinary c addr maxPayloadBytes pre := by
  induction pre with
  | nil =>
    rw [List.nil_append, readLoop_cons_err Read UnmarshalBinary c addr maxPayloadBytes e post he,
      readLoop_nil]
  | cons x pre ih =>
    rw [List.cons_append]
    cases hx : readPayload Read maxPayloadBytes x with
    | none =>
      exact readLoop_cons_none_eq Read UnmarshalBinary c addr maxPayloadBytes x _ _ hx
    | some q =>
      cases hq : decodes UnmarshalBinary q with
      | false =>
        rw [readLoop_cons_reject Read UnmarshalBinary c addr maxPayloadBytes x _ q hx hq,
          readLoop_cons_reject Read UnmarshalBinary c addr maxPayloadBytes x _ q hx hq, ih]
      | true =>
        rw [readLoop_cons_accept Read UnmarshalBinary c addr maxPayloadBytes x _ q hx hq,
          readLoop_cons_accept Read UnmarshalBinary c addr maxPayloadBytes x _ q hx hq, ih]

theorem readLoop_exit_returned
    (hRead : ∀ m e buf n d, Read m e buf = .ok n d → 0 ≤ n ∧ n ≤ (buf.length : Int))
    (s : List ι) :
    (readLoop Read UnmarshalBinary c addr maxPayloadBytes s).exit = .returned := by
  induction s with
  | nil => simp [readLoop]
  | cons e rest ih =>
    cases hr : Read maxPayloadBytes e (make maxPayloadBytes) with
    | err => rw [readLoop_cons_err Read UnmarshalBinary c addr maxPayloadBytes e rest hr]
    | ok n d =>
      have hb := hRead _ _ _ _ _ hr
      rw [make_length] at hb
      have hp : readPayload Read maxPayloadBytes e
          = some ((copyInto (make maxPayloadBytes) d).take n.toNat) :=
        (readPayload_eq_some_iff Read maxPayloadBytes e _).mpr ⟨n, d, hr, hb.1, hb.2, rfl⟩
      cases hq : decodes UnmarshalBinary ((copyInto (make maxPayloadBytes) d).take n.toNat) with
      | false =>
        rw [readLoop_cons_reject Read UnmarshalBinary c addr maxPayloadBytes e rest _ hp hq]
        exact ih
      | true =>
        rw [readLoop_cons_accept Read UnmarshalBinary c addr maxPayloadBytes e rest _ hp hq]
        exact ih

theorem sentPayloads_readLoop_stop (s : List ι)
    (h : s = [] ∨ ∃ e rest, s = e :: rest ∧ readPayload Read maxPayloadBytes e = none) :
    sentPayloads (readLoop Read UnmarshalBinary c addr maxPayloadBytes s).trace = [] := by
  rcases h with h | ⟨e, rest, h, he⟩
  · subst h
    simp [readLoop, sentPayloads]
  · subst h
    rw [readLoop_cons_none Read UnmarshalBinary c addr maxPayloadBytes e rest he]
    simp [sentPayloads]

theorem take_copyInto (buf data : List Byte) (k : Nat)
    (hk : k ≤ data.length) (hb : k ≤ buf.length) :
    (copyInto buf data).take k = data.take k := by
  unfold copyInto
  rw [List.take_append_of_le_length (by rw [List.length_take]; omega), List.take_take]
  congr 1
  omega

theorem wsRead_count_in_range (m : Nat) (e : Inbound) (buf : List Byte) (n : Int)
    (d : List Byte) (h : wsRead m e buf = .ok n d) : 0 ≤ n ∧ n ≤ (buf.length : Int) := by
  cases e with
  | failure => simp [wsRead] at h
  | payload p =>
    simp only [wsRead] at h
    split at h
    · simp at h
    · simp only [ReadResult.ok.injEq] at h
      rw [← h.1]
      constructor
      · exact Int.ofNat_nonneg _
      · exact Int.ofNat_le.mpr (Nat.min_le_right _ _)

theorem readPayload_wsRead_payload (m : Nat) (p : List Byte) :
    readPayload wsRead m (.payload p) = if p.length > m then none else some p := by
  unfold readPayload
  by_cases hgt : p.length > m
  · simp [wsRead, hgt]
  · have hle2 : p.length ≤ m := Nat.le_of_not_gt hgt
    simp only [wsRead, hgt, if_false, sliceTo, copyInto_length, make_length, Int.toNat_ofNat]
    rw [if_pos ⟨Int.ofNat_nonneg _, Int.ofNat_le.mpr (Nat.min_le_right _ _)⟩,
      Nat.min_eq_left hle2, take_copyInto _ _ _ (Nat.le_refl _) (by rw [make_length]; exact hle2),
      List.take_length]

theorem wsRead_oversized (m : Nat) (p buf : List Byte) (h : m < p.length) :
    wsRead m (.payload p) buf = .err := by
  simp [wsRead, h]

end Loop

/-! ## The session -/

section Claims

variable {ι ε μ : Type} (Read : Nat → ι → List Byte → ReadResult)
  (UnmarshalBinary : List Byte → Except ε μ) (c : Client)

theorem Handle_trace_eq (ws : Conn ι) :
    (Handle Read UnmarshalBinary c ws).trace
      = .Join c.repeaterName ws.addr ::
          ((readLoop Read UnmarshalBinary c ws.addr 500 ws.inbound).trace ++
            [.Part c.repeaterName ws.addr]) := rfl

theorem Handle_exit_eq (ws : Conn ι) :
    (Handle Read UnmarshalBinary c ws).exit
      = (readLoop Read UnmarshalBinary c ws.addr 500 ws.inbound).exit := rfl

theorem readLoop_countP_isPart (addr maxPayloadBytes : Nat) (s : List ι) :
    (readLoop Read UnmarshalBinary c addr maxPayloadBytes s).trace.countP Effect.isPart = 0 := by
  rw [List.countP_eq_zero]
  intro x hx
  rcases readLoop_trace_shape Read UnmarshalBinary c addr maxPayloadBytes s x hx with h | ⟨p, h⟩
  · simp [h, Effect.isPart]
  · simp [h, Effect.isPart]

theorem readLoop_countP_isJoin (addr maxPayloadBytes : Nat) (s : List ι) :
    (readLoop Read UnmarshalBinary c addr maxPayloadBytes s).trace.countP Effect.isJoin = 0 := by
  rw [List.countP_eq_zero]
  intro x hx
  rcases readLoop_trace_shape Read UnmarshalBinary c addr maxPayloadBytes s x hx with h | ⟨p, h⟩
  · simp [h, Effect.isJoin]
  · simp [h, Effect.isJoin]

theorem countP_isPart_hubCommands (t : List Effect) :
    (hubCommands t).countP Effect.isPart = t.countP Effect.isPart := by
  induction t with
  | nil => simp [hubCommands]
  | cons x t ih =>
    simp only [hubCommands] at ih
    cases x <;> simp [hubCommands, Effect.isHub, Effect.isPart, List.filter_cons, ih]

/-- C1: whatever the connection delivers (any finite run of reads, passing or
failing the envelope decode, ended by a read error or by the closure of the
stream), `Client.Handle` produces its outcome, and the Hub commands it issued
contain exactly one `Part`, namely `Part(repeaterName, ws)`, which is the last
command; it is also the last effect of the whole session, on the return path
and on the panic path alike. -/
theorem Handle_part_once_and_last (ws : Conn ι) :
    (hubCommands (Handle Read UnmarshalBinary c ws).trace).getLast?
        = some (.Part c.repeaterName ws.addr) ∧
      (hubCommands (Handle Read UnmarshalBinary c ws).trace).countP Effect.isPart = 1 ∧
      (hubCommands (Handle Read UnmarshalBinary c ws).trace).count
        (.Part c.repeaterName ws.addr) = 1 ∧
      (Handle Read UnmarshalBinary c ws).trace.getLast?
        = some (.Part c.repeaterName ws.addr) := by
  have hcount : (Handle Read UnmarshalBinary c ws).trace.countP Effect.isPart = 1 := by
    rw [Handle_trace_eq, List.countP_cons, List.countP_append, readLoop_countP_isPart]
    simp [Effect.isPart]
  have hlast : (Handle Read UnmarshalBinary c ws).trace.getLast?
      = some (.Part c.repeaterName ws.addr) := by
    rw [Handle_trace_eq, ← List.cons_append, List.getLast?_concat]
  have hhub : hubCommands (Handle Read UnmarshalBinary c ws).trace
      = hubCommands (.Join c.repeaterName ws.addr ::
          (readLoop Read UnmarshalBinary c ws.addr 500 ws.inbound).trace)
        ++ [.Part c.repeaterName ws.addr] := by
    rw [Handle_trace_eq, ← List.cons_append]
    simp [hubCommands, Effect.isHub]
  have hcp : (hubCommands (Handle Read UnmarshalBinary c ws).trace).countP Effect.isPart = 1 := by
    rw [countP_isPart_hubCommands, hcount]
  refine ⟨?_, hcp, ?_, hlast⟩
  · rw [hhub, List.getLast?_concat]
  · apply Nat.le_antisymm
    · rw [← hcp, List.count]
      apply List.countP_mono_left
      intro x _ hx
      have : x = .Part c.repeaterName ws.addr := by simpa using hx
      simp [this, Effect.isPart]
    · rw [hhub]
      simp

/-- C5: within one session every Hub command of `Client.Handle` (the `Join`,
every `Send`, the `Part`) carries the repeater name of the client, and every
`Join` and `Part` carries the connection handle `ws` of the session: no other
repeater is joined, broadcast to or parted. -/
theorem Handle_single_repeater (ws : Conn ι) :
    (∀ x ∈ (Handle Read UnmarshalBinary c ws).trace,
        x.isHub = true → x.name? = some c.repeaterName) ∧
      (∀ name a, Effect.Join name a ∈ (Handle Read UnmarshalBinary c ws).trace →
        name = c.repeaterName ∧ a = ws.addr) ∧
      (∀ name a, Effect.Part name a ∈ (Handle Read UnmarshalBinary c ws).trace →
        name = c.repeaterName ∧ a = ws.addr) ∧
      (∀ name p, Effect.Send name p ∈ (Handle Read UnmarshalBinary c ws).trace →
        name = c.repeaterName) := by
  have key : ∀ x ∈ (Handle Read UnmarshalBinary c ws).trace,
      x = .Join c.repeaterName ws.addr ∨ x = .Part c.repeaterName ws.addr ∨
        x = .Read ws.addr ∨ ∃ p, x = .Send c.repeaterName p := by
    intro x hx
    rw [Handle_trace_eq] at hx
    simp only [List.mem_cons, List.mem_append, List.mem_singleton, List.not_mem_nil,
      or_false] at hx
    rcases hx with hx | hx | hx
    · exact Or.inl hx
    · rcases readLoop_trace_shape Read UnmarshalBinary c ws.addr 500 ws.inbound x hx
        with h | h
      · exact Or.inr (Or.inr (Or.inl h))
      · exact Or.inr (Or.inr (Or.inr h))
    · exact Or.inr (Or.inl hx)
  refine ⟨?_, ?_, ?_, ?_⟩
  · intro x hx hhub
    rcases key x hx with h | h | h | ⟨p, h⟩
    · simp [h, Effect.name?]
    · simp [h, Effect.name?]
    · simp [h, Effect.isHub] at hhub
    · simp [h, Effect.name?]
  · intro name a hx
    rcases key _ hx with h | h | h | ⟨p, h⟩
    · cases h
      exact ⟨rfl, rfl⟩
    · cases h
    · cases h
    · cases h
  · intro name a hx
    rcases key _ hx with h | h | h | ⟨p, h⟩
    · cases h
    · cases h
      exact ⟨rfl, rfl⟩
    · cases h
    · cases h
  · intro name q hx
    rcases key _ hx with h | h | h | ⟨p, h⟩
    · cases h
    · cases h
    · cases h
    · cases h
      rfl

/-- C9: every session of `Client.Handle` is `Join(repeaterName, ws)`, then a
run of `ws.Read` calls and `Send(repeaterName, _)` commands, then
`Part(repeaterName, ws)` and nothing more.  So there is exactly one `Join`, it
is the first effect (it precedes every transport read), every `Send` lies
strictly between the `Join` and the `Part`, and no command follows the
`Part`. -/
theorem Handle_join_sends_part_order (ws : Conn ι) :
    (∃ mid : List Effect,
        (Handle Read UnmarshalBinary c ws).trace
          = .Join c.repeaterName ws.addr :: (mid ++ [.Part c.repeaterName ws.addr]) ∧
        ∀ x ∈ mid, x = .Read ws.addr ∨ ∃ p, x = .Send c.repeaterName p) ∧
      (Handle Read UnmarshalBinary c ws).trace.countP Effect.isJoin = 1 ∧
      (Handle Read UnmarshalBinary c ws).trace.head? = some (.Join c.repeaterName ws.addr) ∧
      (Handle Read UnmarshalBinary c ws).trace.countP Effect.isPart = 1 := by
  refine ⟨⟨(readLoop Read UnmarshalBinary c ws.addr 500 ws.inbound).trace,
    Handle_trace_eq Read UnmarshalBinary c ws,
    readLoop_trace_shape Read UnmarshalBinary c ws.addr 500 ws.inbound⟩, ?_, ?_, ?_⟩
  · rw [Handle_trace_eq, List.countP_cons, List.countP_append, readLoop_countP_isJoin]
    simp [Effect.isJoin]
  · rw [Handle_trace_eq, List.head?_cons]
  · rw [Handle_trace_eq, List.countP_cons, List.countP_append, readLoop_countP_isPart]
    simp [Effect.isPart]

/-- C2: when the reads before it succeed and a read answers the count `n`
with `0 ≤ n ≤ 500` and the bytes `buf[:n]` pass the envelope decode, the
command issued right after that read is `Send(repeaterName, buf[:n])`, where
`buf[:n]` is the first `n` bytes of the buffer as the read left it (the first
`n` bytes the transport stored, when it stored that many).  Conversely every
payload ever handed to `book.Send` is such a raw `buf[:n]` of one of the
reads: the decoded message is never what is sent. -/
theorem Handle_sends_raw_bytes (ws : Conn ι) (pre post : List ι) (e : ι) (n : Int)
    (data : List Byte)
    (hin : ws.inbound = pre ++ e :: post)
    (hpre : ∀ x ∈ pre, (readPayload Read 500 x).isSome = true)
    (hr : Read 500 e (make 500) = .ok n data)
    (h0 : 0 ≤ n) (h1 : n ≤ 500)
    (hd : decodes UnmarshalBinary ((copyInto (make 500) data).take n.toNat) = true) :
    (Handle Read UnmarshalBinary c ws).trace
        = .Join c.repeaterName ws.addr ::
            ((passTrace Read UnmarshalBinary c ws.addr 500 pre ++
              .Read ws.addr ::
              .Send c.repeaterName ((copyInto (make 500) data).take n.toNat) ::
              (readLoop Read UnmarshalBinary c ws.addr 500 post).trace) ++
            [.Part c.repeaterName ws.addr]) ∧
      (n.toNat ≤ data.length →
        (copyInto (make 500) data).take n.toNat = data.take n.toNat) ∧
      (∀ name p, Effect.Send name p ∈ (Handle Read UnmarshalBinary c ws).trace →
        ∃ x ∈ ws.inbound, ∃ k d, Read 500 x (make 500) = .ok k d ∧ 0 ≤ k ∧ k ≤ 500 ∧
          p = (copyInto (make 500) d).take k.toNat ∧ decodes UnmarshalBinary p = true) := by
  have hp : readPayload Read 500 e = some ((copyInto (make 500) data).take n.toNat) :=
    (readPayload_eq_some_iff Read 500 e _).mpr ⟨n, data, hr, h0, h1, rfl⟩
  refine ⟨?_, ?_, ?_⟩
  · rw [Handle_trace_eq, hin, readLoop_append Read UnmarshalBinary c ws.addr 500 pre _ hpre,
      readLoop_cons_accept Read UnmarshalBinary c ws.addr 500 e post _ hp hd]
  · intro hlen
    apply take_copyInto _ _ _ hlen
    rw [make_length]
    omega
  · intro name p hmem
    rw [Handle_trace_eq] at hmem
    simp only [List.mem_cons, List.mem_append, List.mem_singleton, List.not_mem_nil,
      or_false] at hmem
    rcases hmem with hmem | hmem | hmem
    · cases hmem
    · obtain ⟨x, hx, hxp, hxd⟩ :=
        readLoop_send_origin Read UnmarshalBinary c ws.addr 500 ws.inbound name p hmem
      obtain ⟨k, d, hk, hk0, hk1, hkp⟩ := (readPayload_eq_some_iff Read 500 x p).mp hxp
      exact ⟨x, hx, k, d, hk, hk0, hk1, hkp, hxd⟩
    · cases hmem

/-- C3: a payload that is read but fails the envelope decode causes no Hub
command: the Hub commands and the exit of the session are those of the same
session without that payload (so no `Send` and no `Part` is issued for it).
The loop goes on with the next read: when the reads around it succeed, a later
payload that decodes is still handed to `book.Send`. -/
theorem Handle_decode_failure_skipped (addr m : Nat) (pre post : List ι) (e : ι)
    (p : List Byte)
    (hp : readPayload Read 500 e = some p)
    (hd : decodes UnmarshalBinary p = false) :
    hubCommands (Handle Read UnmarshalBinary c ⟨addr, m, pre ++ e :: post⟩).trace
        = hubCommands (Handle Read UnmarshalBinary c ⟨addr, m, pre ++ post⟩).trace ∧
      (Handle Read UnmarshalBinary c ⟨addr, m, pre ++ e :: post⟩).exit
        = (Handle Read UnmarshalBinary c ⟨addr, m, pre ++ post⟩).exit ∧
      ((∀ x ∈ pre, (readPayload Read 500 x).isSome = true) →
        (Handle Read UnmarshalBinary c ⟨addr, m, pre ++ e :: post⟩).trace
          = .Join c.repeaterName addr ::
              ((passTrace Read UnmarshalBinary c addr 500 pre ++
                .Read addr :: (readLoop Read UnmarshalBinary c addr 500 post).trace) ++
              [.Part c.repeaterName addr])) ∧
      (∀ mid rest e2 p2, post = mid ++ e2 :: rest →
        (∀ x ∈ pre, (readPayload Read 500 x).isSome = true) →
        (∀ x ∈ mid, (readPayload Read 500 x).isSome = true) →
        readPayload Read 500 e2 = some p2 → decodes UnmarshalBinary p2 = true →
        Effect.Send c.repeaterName p2
          ∈ (Handle Read UnmarshalBinary c ⟨addr, m, pre ++ e :: post⟩).trace) := by
  have hskip := readLoop_skip_rejected Read UnmarshalBinary c addr 500 pre post e p hp hd
  refine ⟨?_, ?_, ?_, ?_⟩
  · rw [Handle_trace_eq, Handle_trace_eq]
    have h1 := hskip.1
    simp only [hubCommands] at h1 ⊢
    simp only [List.filter_cons, List.filter_append, h1]
  · rw [Handle_exit_eq, Handle_exit_eq]
    exact hskip.2
  · intro hpre
    rw [Handle_trace_eq]
    simp only []
    rw [readLoop_append Read UnmarshalBinary c addr 500 pre _ hpre,
      readLoop_cons_reject Read UnmarshalBinary c addr 500 e post p hp hd]
  · intro mid rest e2 p2 hpost hpre hmid hp2 hd2
    have hall : ∀ x ∈ pre ++ e :: mid, (readPayload Read 500 x).isSome = true := by
      intro x hx
      simp only [List.mem_append, List.mem_cons] at hx
      rcases hx with hx | hx | hx
      · exact hpre x hx
      · rw [hx, hp]
        rfl
      · exact hmid x hx
    have hsplit : pre ++ e :: post = (pre ++ e :: mid) ++ e2 :: rest := by
      rw [hpost]
      simp
    rw [Handle_trace_eq]
    simp only []
    rw [hsplit, readLoop_append Read UnmarshalBinary c addr 500 _ _ hall,
      readLoop_cons_accept Read UnmarshalBinary c addr 500 e2 rest p2 hp2 hd2]
    simp

/-- C8: for a session whose reads `reads` all succeed (count in range) and
are followed by a failing read or by the closure of the stream, the payloads
handed to `book.Send`, in order, are exactly the payloads of `reads` that
pass the envelope decode, in read order: each once, none duplicated,
reordered or skipped. -/
theorem Handle_sends_accepted_in_order (addr m : Nat) (reads rest : List ι)
    (hreads : ∀ x ∈ reads, (readPayload Read 500 x).isSome = true)
    (hrest : rest = [] ∨ ∃ e tl, rest = e :: tl ∧ readPayload Read 500 e = none) :
    sentPayloads (Handle Read UnmarshalBinary c ⟨addr, m, reads ++ rest⟩).trace
      = (reads.filterMap (readPayload Read 500)).filter (decodes UnmarshalBinary) := by
  rw [Handle_trace_eq]
  simp only []
  rw [readLoop_append Read UnmarshalBinary c addr 500 reads rest hreads]
  simp only [sentPayloads, sentPayloads_append,
    sentPayloads_passTrace Read UnmarshalBinary c addr 500 reads hreads,
    sentPayloads_readLoop_stop Read UnmarshalBinary c addr 500 rest hrest, List.append_nil]

/-- C10: if every transport read into a buffer answers a count `n` with
`0 ≤ n ≤ len(buf)`, then the slice `buf[:n]` of `Client.Handle` is in bounds
at every read (the session never panics) and every payload handed to
`book.Send` has at most 500 bytes. -/
theorem Handle_slice_in_bounds (ws : Conn ι)
    (hRead : ∀ m e buf n d, Read m e buf = .ok n d → 0 ≤ n ∧ n ≤ (buf.length : Int)) :
    (Handle Read UnmarshalBinary c ws).exit = .returned ∧
      (∀ e ∈ ws.inbound, ∀ n d, Read 500 e (make 500) = .ok n d →
        (sliceTo (copyInto (make 500) d) n).isSome = true) ∧
      (∀ name p, Effect.Send name p ∈ (Handle Read UnmarshalBinary c ws).trace →
        p.length ≤ 500) := by
  refine ⟨?_, ?_, ?_⟩
  · rw [Handle_exit_eq]
    exact readLoop_exit_returned Read UnmarshalBinary c ws.addr 500 hRead ws.inbound
  · intro e _ n d hr
    have hb := hRead _ _ _ _ _ hr
    simp only [sliceTo, copyInto_length]
    rw [if_pos hb]
    rfl
  · intro name p hmem
    rw [Handle_trace_eq] at hmem
    simp only [List.mem_cons, List.mem_append, List.mem_singleton, List.not_mem_nil,
      or_false] at hmem
    rcases hmem with hmem | hmem | hmem
    · cases hmem
    · obtain ⟨x, _, hxp, _⟩ :=
        readLoop_send_origin Read UnmarshalBinary c ws.addr 500 ws.inbound name p hmem
      exact readPayload_length_le Read 500 x p hxp
    · cases hmem

/-- C4: under the transport of the spec, an inbound payload of more than 500
bytes ends the session where it arrives: the session is the one in which the
stream closes at that point, whatever the oversized payload holds and whatever
follows it.  A session that starts with it is `Join`, one `Read`, `Part`; in
general every payload handed to `book.Send` is an earlier inbound payload of
at most 500 bytes, so nothing of the oversized payload is broadcast. -/
theorem Handle_oversized_payload_ends_session (addr m : Nat) (pre post : List Inbound)
    (p : List Byte) (hlen : 500 < p.length) :
    Handle wsRead UnmarshalBinary c ⟨addr, m, pre ++ Inbound.payload p :: post⟩
        = Handle wsRead UnmarshalBinary c ⟨addr, m, pre⟩ ∧
      Handle wsRead UnmarshalBinary c ⟨addr, m, Inbound.payload p :: post⟩
        = ⟨[.Join c.repeaterName addr, .Read addr, .Part c.repeaterName addr], .returned⟩ ∧
      (∀ name q, Effect.Send name q
          ∈ (Handle wsRead UnmarshalBinary c ⟨addr, m, pre ++ Inbound.payload p :: post⟩).trace →
        Inbound.payload q ∈ pre ∧ q.length ≤ 500) := by
  have hstop : readLoop wsRead UnmarshalBinary c addr 500 (pre ++ Inbound.payload p :: post)
      = readLoop wsRead UnmarshalBinary c addr 500 pre :=
    readLoop_stop_at_err wsRead UnmarshalBinary c addr 500 pre post _
      (wsRead_oversized 500 p _ hlen)
  refine ⟨?_, ?_, ?_⟩
  · simp only [Handle, hstop]
  · simp only [Handle]
    rw [readLoop_cons_err wsRead UnmarshalBinary c addr 500 _ post
      (wsRead_oversized 500 p _ hlen)]
    rfl
  · intro name q hmem
    rw [Handle_trace_eq] at hmem
    simp only [] at hmem
    rw [hstop] at hmem
    simp only [List.mem_cons, List.mem_append, List.mem_singleton, List.not_mem_nil,
      or_false] at hmem
    rcases hmem with hmem | hmem | hmem
    · cases hmem
    · obtain ⟨x, hx, hxp, _⟩ :=
        readLoop_send_origin wsRead UnmarshalBinary c addr 500 pre name q hmem
      cases x with
      | failure => simp [readPayload, wsRead] at hxp
      | payload b =>
        rw [readPayload_wsRead_payload] at hxp
        split at hxp
        · cases hxp
        · rename_i hle
          cases hxp
          exact ⟨hx, Nat.le_of_not_gt hle⟩
    · cases hmem

/-- C7: `ChatHandler` runs `Client.Handle` for the client whose repeater name
is exactly `r.FormValue("repeater")`, on the connection of the request, and
the session begins with the `Join` of that name.  No request is rejected and no
name substituted: a request without the parameter, or with the empty string as
its value, joins the repeater named by the empty string. -/
theorem ChatHandler_joins_named_repeater (r : Request ι) :
    ChatHandler Read UnmarshalBinary r
        = Handle Read UnmarshalBinary ⟨r.FormValue "repeater"⟩ r.conn ∧
      (ChatHandler Read UnmarshalBinary r).trace.head?
        = some (.Join (r.FormValue "repeater") r.conn.addr) ∧
      (∀ v vs, r.Form.lookup "repeater" = some (v :: vs) →
        (ChatHandler Read UnmarshalBinary r).trace.head? = some (.Join v r.conn.addr)) ∧
      (r.Form.lookup "repeater" = none →
        (ChatHandler Read UnmarshalBinary r).trace.head? = some (.Join "" r.conn.addr)) ∧
      (∀ vs, r.Form.lookup "repeater" = some ("" :: vs) →
        (ChatHandler Read UnmarshalBinary r).trace.head? = some (.Join "" r.conn.addr)) := by
  have hhead : (ChatHandler Read UnmarshalBinary r).trace.head?
      = some (.Join (r.FormValue "repeater") r.conn.addr) := rfl
  refine ⟨rfl, hhead, ?_, ?_, ?_⟩
  · intro v vs h
    rw [hhead]
    simp [Request.FormValue, h]
  · intro h
    rw [hhead]
    simp [Request.FormValue, h]
  · intro vs h
    rw [hhead]
    simp [Request.FormValue, h]

end Claims

/-- C6: in `main`, whatever `http.ListenAndServe` returns, `go book.Run()` is
executed exactly once, after `book = NewBook()` and immediately before
`http.ListenAndServe(":8080", nil)`, which is invoked once: the Hub loop is
started on the initialised Hub before the endpoint accepts clients. -/
theorem main_starts_hub_before_listening (listenErr : Option String) :
    (main listenErr).count .GoRun = 1 ∧
      (main listenErr).count .NewBook = 1 ∧
      (main listenErr).count (.ListenAndServe ":8080") = 1 ∧
      (∃ a b d, main listenErr
          = a ++ .NewBook :: (b ++ .GoRun :: .ListenAndServe ":8080" :: d) ∧
        MainEffect.GoRun ∉ a ∧ MainEffect.GoRun ∉ b ∧ MainEffect.GoRun ∉ d ∧
        (∀ addr, MainEffect.ListenAndServe addr ∉ a ++ .NewBook :: b) ∧
        (∀ addr, MainEffect.ListenAndServe addr ∉ d)) := by
  refine ⟨?_, ?_, ?_, [], [.HttpHandle "/chat" .ChatHandler,
    .HttpHandle "/" (.FileServer "static")],
    (match listenErr with
     | some msg => [.Fatal msg]
     | none => []), ?_, ?_, ?_, ?_, ?_, ?_⟩
  · cases listenErr <;> simp [main]
  · cases listenErr <;> simp [main]
  · cases listenErr <;> simp [main]
  · rfl
  · simp
  · simp
  · cases listenErr <;> simp
  · simp
  · cases listenErr <;> simp

set_option maxRecDepth 200000

theorem Handle_sends_raw_bytes_witness :
    (Handle scriptRead sampleUnmarshal sampleClient
        ⟨7, 0, [.ok 2 [1, 2], .ok 3 [5, 6, 7, 8], .err]⟩).trace
      = [.Join "r" 7, .Read 7, .Send "r" [1, 2], .Read 7, .Send "r" [5, 6, 7], .Read 7,
          .Part "r" 7] :=
  (Handle_sends_raw_bytes scriptRead sampleUnmarshal sampleClient
    ⟨7, 0, [.ok 2 [1, 2], .ok 3 [5, 6, 7, 8], .err]⟩
    [.ok 2 [1, 2]] [.err] (.ok 3 [5, 6, 7, 8]) 3 [5, 6, 7, 8]
    rfl (by decide) rfl (by decide) (by decide) (by decide)).1.trans (by decide)

theorem Handle_decode_failure_skipped_witness :
    hubCommands (Handle scriptRead sampleUnmarshal sampleClient
        ⟨7, 0, [.ok 2 [1, 2]] ++ .ok 1 [0] :: [.ok 1 [9], .err]⟩).trace
      = hubCommands (Handle scriptRead sampleUnmarshal sampleClient
        ⟨7, 0, [.ok 2 [1, 2]] ++ [.ok 1 [9], .err]⟩).trace ∧
    Effect.Send "r" [9] ∈ (Handle scriptRead sampleUnmarshal sampleClient
        ⟨7, 0, [.ok 2 [1, 2]] ++ .ok 1 [0] :: [.ok 1 [9], .err]⟩).trace :=
  have h := Handle_decode_failure_skipped scriptRead sampleUnmarshal sampleClient 7 0
    [.ok 2 [1, 2]] [.ok 1 [9], .err] (.ok 1 [0]) [0] (by decide) (by decide)
  ⟨h.1, h.2.2.2 [] [.err] (.ok 1 [9]) [9] rfl (by decide) (by decide) (by decide) (by decide)⟩

theorem Handle_sends_accepted_in_order_witness :
    sentPayloads (Handle scriptRead sampleUnmarshal sampleClient
        ⟨7, 0, [.ok 2 [1, 2], .ok 1 [0], .ok 3 [5, 6, 7, 8]] ++ [.err, .ok 1 [9]]⟩).trace
      = [[1, 2], [5, 6, 7]] :=
  (Handle_sends_accepted_in_order scriptRead sampleUnmarshal sampleClient 7 0
    [.ok 2 [1, 2], .ok 1 [0], .ok 3 [5, 6, 7, 8]] [.err, .ok 1 [9]]
    (by decide) (Or.inr ⟨.err, [.ok 1 [9]], rfl, by decide⟩)).trans (by decide)

theorem Handle_slice_in_bounds_witness :
    (Handle wsRead sampleUnmarshal sampleClient
        ⟨7, 0, [.payload [1, 2], .payload [0], .failure]⟩).exit = .returned ∧
    ∀ name p, Effect.Send name p ∈ (Handle wsRead sampleUnmarshal sampleClient
        ⟨7, 0, [.payload [1, 2], .payload [0], .failure]⟩).trace → p.length ≤ 500 :=
  have h := Handle_slice_in_bounds wsRead sampleUnmarshal sampleClient
    ⟨7, 0, [.payload [1, 2], .payload [0], .failure]⟩ wsRead_count_in_range
  ⟨h.1, h.2.2⟩

theorem Handle_oversized_payload_ends_session_witness :
    500 < (List.replicate 501 (1 : Byte)).length ∧
    Handle wsRead sampleUnmarshal sampleClient
        ⟨7, 0, [.payload [1, 2]] ++ Inbound.payload (List.replicate 501 1) :: [.payload [3]]⟩
      = Handle wsRead sampleUnmarshal sampleClient ⟨7, 0, [.payload [1, 2]]⟩ :=
  ⟨by decide,
    (Handle_oversized_payload_ends_session sampleUnmarshal sampleClient 7 0
      [.payload [1, 2]] [.payload [3]] (List.replicate 501 1) (by decide)).1⟩

theorem ChatHandler_joins_named_repeater_witness :
    (ChatHandler scriptRead sampleUnmarshal
        ⟨[("name", ["x"])], ⟨7, 0, [.ok 2 [1, 2], .err]⟩⟩).trace.head?
      = some (.Join "" 7) :=
  (ChatHandler_joins_named_repeater scriptRead sampleUnmarshal
    ⟨[("name", ["x"])], ⟨7, 0, [.ok 2 [1, 2], .err]⟩⟩).2.2.2.1 (by decide)

end Vail
